import Mathlib

set_option maxRecDepth 8192

/-!
Verification development for the tinytoml package (github.com/LixenWraith/tinytoml).

This file gives a shallow embedding, in Lean 4, of the parsing engine
(`unmarshal.go`), the encoder (`marshal.go`) and the shared helpers of the
package (`tinytoml.go`: error constants, `tableGroup`, key validation,
`splitTableKey`, `flattenTable`), and proves properties of that embedding.

Modelling conventions, used throughout:

* Go strings are modelled as `List Char`.  All inputs relevant here are
  ASCII, where Go's byte-wise operations and Lean's `Char`-wise operations
  agree; `strings.TrimSpace` is modelled over the ASCII whitespace class
  (the Unicode-only space code points are not modelled).
* Go's `map[string]T` is unordered.  It is modelled as an association list
  with unique keys; where the Go code inserts a fresh key we append, giving
  one canonical order (first-insertion order) to each parse result.  The
  encoder sorts keys, so no theorem depends on this choice beyond picking a
  canonical representative.
* `float64` values are modelled exactly: a finite float is carried as a
  normalised decimal mantissa/exponent pair `m * 10^e` (trailing zeros of
  `m` stripped), and `strconv.ParseFloat`'s decimal reader is modelled
  without the final rounding step to 53-bit precision (the inputs used in
  the theorems below denote exactly representable values, where this
  abstraction is exact).  Hexadecimal float syntax and digit-separating
  underscores, which no theorem here touches, are not modelled.
  `strconv.ParseFloat` range errors (overflow to infinity, underflow to
  zero) make the caller treat the input as not-a-float, and are modelled
  by the same `none` result as a syntax error.
* Go errors are strings built by `errorf`; they are modelled as a base
  error kind (one per error constant of `tinytoml.go`) plus a context
  trail.  Wrapping preserves the base kind.
* Fuel: the Go functions `parseValue`/`parseArray` and the `marshal`
  family recurse through data that is not structurally smaller in Lean's
  sense.  They are modelled with an explicit fuel parameter so that every
  definition is a computable structural recursion that the kernel can
  evaluate.  Running out of fuel yields the distinguished kind
  `ErrKind.outOfFuel`, which no actual execution with adequate fuel
  reaches; top-level entry points pass fuel larger than the recursion
  depth of any input (`parseValue` nesting strictly shrinks its input
  string, so `length + 1` fuel always suffices).
-/

/-- ASCII whitespace recognised by `strings.TrimSpace` (`unicode.IsSpace`
restricted to ASCII, which covers every input in this development). -/
def isSpaceGo (c : Char) : Bool :=
  c = ' ' || c = '\t' || c = '\n' || c = (Char.ofNat 11) || c = (Char.ofNat 12) || c = '\r'

/-- Drop leading Go whitespace, the left half of `strings.TrimSpace`. -/
def trimLeft : List Char → List Char
  | [] => []
  | c :: rest => if isSpaceGo c then trimLeft rest else c :: rest

/-- Model of `strings.TrimSpace`: trim both ends. -/
def trimSpace (s : List Char) : List Char :=
  ((trimLeft ((trimLeft s).reverse)).reverse)

/-- One step of `bufio.ScanLines`' carriage-return handling: the accumulator
holds the current line reversed, so a trailing `\r` is its head. -/
def emitLine (acc : List Char) : List Char :=
  (match acc with
   | '\r' :: rest => rest
   | other => other).reverse

/-- Worker for `splitLinesGo`, accumulating the current line in reverse. -/
def splitLinesAux (acc : List Char) : List Char → List (List Char)
  | [] => if acc.isEmpty then [] else [emitLine acc]
  | '\n' :: rest => emitLine acc :: splitLinesAux [] rest
  | c :: rest => splitLinesAux (c :: acc) rest

/-- Model of the `bufio.Scanner`/`bufio.ScanLines` loop driving
`parser.parse`: split the input at `\n`, dropping one trailing `\r` per
line; a final newline does not produce an extra empty line. -/
def splitLinesGo (s : List Char) : List (List Char) :=
  splitLinesAux [] s

/-- Model of `strings.Split(s, ".")` (used on non-empty inputs only). -/
def splitOnDotAux (acc : List Char) : List Char → List (List Char)
  | [] => [acc.reverse]
  | '.' :: rest => acc.reverse :: splitOnDotAux [] rest
  | c :: rest => splitOnDotAux (c :: acc) rest

/-- Split a key or table path on `.` separators. -/
def splitOnDot (s : List Char) : List (List Char) :=
  splitOnDotAux [] s

/-- Model of `strings.SplitN(line, "=", 2)`: `none` when the line has no
`=`, otherwise the parts left and right of the first `=`. -/
def splitFirstEq : List Char → Option (List Char × List Char)
  | [] => none
  | '=' :: rest => some ([], rest)
  | c :: rest => (splitFirstEq rest).map (fun p => (c :: p.1, p.2))

/-- Does the line contain the two-character sequence `" #"`?  This is the
`strings.Index(line, " #") >= 0` test of `parser.parse`. -/
def hasSpaceHash : List Char → Bool
  | [] => false
  | [_] => false
  | c1 :: c2 :: rest => (c1 = ' ' && c2 = '#') || hasSpaceHash (c2 :: rest)

/-- The portion of the line before its first `" #"` occurrence (the whole
line when there is none): `line[:strings.Index(line, " #")]`.  The scan is
not quote-aware, exactly as in `parser.parse`. -/
def stripComment : List Char → List Char
  | [] => []
  | [c] => [c]
  | c1 :: c2 :: rest =>
      if c1 = ' ' && c2 = '#' then [] else c1 :: stripComment (c2 :: rest)

example : trimSpace "  a b\t ".data = "a b".data := rfl
example : splitLinesGo "a\nb\r\n\nc".data = ["a".data, "b".data, [], "c".data] := rfl
example : splitLinesGo "".data = [] := rfl
example : splitOnDot "a.b".data = ["a".data, "b".data] := rfl
example : splitFirstEq "k = v = w".data = some ("k ".data, " v = w".data) := rfl
example : stripComment "x = 1 # c".data = "x = 1".data := rfl

/-- Exact model of a Go `float64` produced by `strconv.ParseFloat`:
`finite m e` denotes `m * 10^e` with `m` never divisible by 10 (and
`(0, 0)` for zero), so distinct representations denote distinct values of
the abstraction.  Rounding to 53-bit precision is not modelled. -/
inductive GoFloat where
  | finite (m : Int) (e : Int)
  | inf (neg : Bool)
  | nan
  deriving DecidableEq, Repr

/-- The Go values tinytoml passes around as `any`: the results of
`parser.parseValue` (string, int64, float64, bool, typed slices) and the
nested `map[string]any` produced by `flattenTable` / consumed by
`Marshal`. -/
inductive Val where
  | vStr (s : List Char)
  | vInt (n : Int)
  | vFloat (f : GoFloat)
  | vBool (b : Bool)
  | vArr (elems : List Val)
  | vTable (entries : List (List Char × Val))
  deriving Repr

mutual
/-- Structural equality test on `Val` (Lean cannot derive `DecidableEq`
for this nested inductive). -/
def vbeq : Val → Val → Bool
  | .vStr s, .vStr t => s = t
  | .vInt n, .vInt m => n = m
  | .vFloat f, .vFloat g => f = g
  | .vBool b, .vBool c => b = c
  | .vArr es, .vArr fs => vbeqList es fs
  | .vTable es, .vTable fs => vbeqEntries es fs
  | _, _ => false

/-- Pointwise `vbeq` on lists of values. -/
def vbeqList : List Val → List Val → Bool
  | [], [] => true
  | v :: vs, w :: ws => vbeq v w && vbeqList vs ws
  | _, _ => false

/-- Pointwise `vbeq` on association lists. -/
def vbeqEntries : List (List Char × Val) → List (List Char × Val) → Bool
  | [], [] => true
  | (k, v) :: vs, (l, w) :: ws => k = l && (vbeq v w && vbeqEntries vs ws)
  | _, _ => false
end

mutual
theorem vbeq_iff : ∀ a b : Val, vbeq a b = true ↔ a = b
  | .vStr _, .vStr _ => by simp [vbeq]
  | .vInt _, .vInt _ => by simp [vbeq]
  | .vFloat _, .vFloat _ => by simp [vbeq]
  | .vBool _, .vBool _ => by simp [vbeq]
  | .vArr es, .vArr fs => by simp [vbeq, vbeqList_iff es fs]
  | .vTable es, .vTable fs => by simp [vbeq, vbeqEntries_iff es fs]
  | .vStr _, .vInt _ => by simp [vbeq]
  | .vStr _, .vFloat _ => by simp [vbeq]
  | .vStr _, .vBool _ => by simp [vbeq]
  | .vStr _, .vArr _ => by simp [vbeq]
  | .vStr _, .vTable _ => by simp [vbeq]
  | .vInt _, .vStr _ => by simp [vbeq]
  | .vInt _, .vFloat _ => by simp [vbeq]
  | .vInt _, .vBool _ => by simp [vbeq]
  | .vInt _, .vArr _ => by simp [vbeq]
  | .vInt _, .vTable _ => by simp [vbeq]
  | .vFloat _, .vStr _ => by simp [vbeq]
  | .vFloat _, .vInt _ => by simp [vbeq]
  | .vFloat _, .vBool _ => by simp [vbeq]
  | .vFloat _, .vArr _ => by simp [vbeq]
  | .vFloat _, .vTable _ => by simp [vbeq]
  | .vBool _, .vStr _ => by simp [vbeq]
  | .vBool _, .vInt _ => by simp [vbeq]
  | .vBool _, .vFloat _ => by simp [vbeq]
  | .vBool _, .vArr _ => by simp [vbeq]
  | .vBool _, .vTable _ => by simp [vbeq]
  | .vArr _, .vStr _ => by simp [vbeq]
  | .vArr _, .vInt _ => by simp [vbeq]
  | .vArr _, .vFloat _ => by simp [vbeq]
  | .vArr _, .vBool _ => by simp [vbeq]
  | .vArr _, .vTable _ => by simp [vbeq]
  | .vTable _, .vStr _ => by simp [vbeq]
  | .vTable _, .vInt _ => by simp [vbeq]
  | .vTable _, .vFloat _ => by simp [vbeq]
  | .vTable _, .vBool _ => by simp [vbeq]
  | .vTable _, .vArr _ => by simp [vbeq]

theorem vbeqList_iff : ∀ a b : List Val, vbeqList a b = true ↔ a = b
  | [], [] => by simp [vbeqList]
  | v :: vs, w :: ws => by simp [vbeqList, vbeq_iff v w, vbeqList_iff vs ws]
  | [], _ :: _ => by simp [vbeqList]
  | _ :: _, [] => by simp [vbeqList]

theorem vbeqEntries_iff :
    ∀ a b : List (List Char × Val), vbeqEntries a b = true ↔ a = b
  | [], [] => by simp [vbeqEntries]
  | (_, v) :: vs, (_, w) :: ws => by
      simp [vbeqEntries, vbeq_iff v w, vbeqEntries_iff vs ws, and_assoc]
  | [], _ :: _ => by simp [vbeqEntries]
  | _ :: _, [] => by simp [vbeqEntries]
end

instance : DecidableEq Val := fun a b =>
  decidable_of_iff (vbeq a b = true) (vbeq_iff a b)

/-- The reflect type of a parsed Go value, as compared by
`reflect.TypeOf(val).AssignableTo(elementType)` in
`parser.parseArrayElements`.  `sliceAny` is the type `[]interface{}` of
the empty array literal; `slice t` is the `[]T` built by `parseArray`
from a first element of type `t`.  Every value `parseValue` returns has a
concrete (non-interface) type, so assignability coincides with type
equality. -/
inductive GoType where
  | str
  | int64
  | float64
  | boolean
  | slice (t : GoType)
  | sliceAny
  | mapStrAny
  deriving DecidableEq, Repr

/-- `reflect.TypeOf` on parsed values.  An array built by `parseArray`
has element type `TypeOf(firstElem)` (or `[]interface{}` when empty), so
the slice type is recovered from the first element. -/
def typeOfVal : Val → GoType
  | .vStr _ => .str
  | .vInt _ => .int64
  | .vFloat _ => .float64
  | .vBool _ => .boolean
  | .vArr [] => .sliceAny
  | .vArr (e :: _) => .slice (typeOfVal e)
  | .vTable _ => .mapStrAny

example : typeOfVal (.vArr [.vArr [.vInt 1]]) = .slice (.slice .int64) := rfl

/-- One base kind per error constant of `tinytoml.go`, plus `goPanic`
(the unreachable `val[1:0]` slice panic of `parseQuotedString` on the
one-character value `"`), and `outOfFuel` (the fuel device of this
embedding, never returned on adequately-fuelled runs). -/
inductive ErrKind where
  | nilValue
  | unsupported
  | invalidKey
  | invalidValue
  | invalidFormat
  | invalidTarget
  | missingKey
  | emptyValue
  | invalidString
  | invalidNumber
  | unterminatedString
  | unterminatedArray
  | unterminatedEscape
  | invalidEscape
  | typeMismatch
  | readFailed
  | invalidTableHeader
  | invalidTableName
  | goPanic
  | outOfFuel
  deriving DecidableEq, Repr

/-- A context element added by `errorf`: a function name, a line number,
an offending key/part, an array element index, or a raw fragment. -/
inductive ErrCtx where
  | fn (name : List Char)
  | lineNum (n : Nat)
  | keyCtx (k : List Char)
  | elemIdx (i : Nat)
  | raw (s : List Char)
  deriving DecidableEq, Repr

/-- Model of a tinytoml error string: its base error constant plus the
context trail accumulated by `errorf` wrapping. -/
structure GoErr where
  kind : ErrKind
  trail : List ErrCtx
  deriving DecidableEq, Repr

/-- Model of `errorf(fn, err, context...)`: wrapping prepends context and
keeps the base kind. -/
def errorf (fname : List Char) (e : GoErr) (ctx : List ErrCtx := []) : GoErr :=
  { e with trail := .fn fname :: ctx ++ e.trail }

/-- Build a fresh base error, as `fmt.Errorf(errConstant)` does. -/
def baseErr (k : ErrKind) : GoErr := { kind := k, trail := [] }

/-- Does a computation fail with the given base error kind? -/
def failsWith {A : Type} (r : Except GoErr A) (k : ErrKind) : Bool :=
  match r with
  | .error e => e.kind = k
  | .ok _ => false

/-- Model of `isBareKeyStart`: ASCII letters and underscore. -/
def isBareKeyStart (c : Char) : Bool :=
  ('A' ≤ c && c ≤ 'Z') || ('a' ≤ c && c ≤ 'z') || c = '_'

/-- Model of `isBareKeyChar`: key-start characters, digits and hyphen. -/
def isBareKeyChar (c : Char) : Bool :=
  isBareKeyStart c || ('0' ≤ c && c ≤ '9') || c = '-'

/-- Model of `isValidKey`: non-empty, first character a key-start
character, the rest key characters. -/
def isValidKey : List Char → Bool
  | [] => false
  | c :: rest => isBareKeyStart c && rest.all isBareKeyChar

/-- The character class rejected by `validateBareString`:
`strings.ContainsAny(s, " \t\n\r\"\\#=[]")`.  Note the comma is not in
this set. -/
def isBareForbidden (c : Char) : Bool :=
  c = ' ' || c = '\t' || c = '\n' || c = '\r' || c = '"' || c = '\\' ||
  c = '#' || c = '=' || c = '[' || c = ']'

/-- Model of `validateBareString`: reject strings containing a forbidden
character with `errInvalidString`. -/
def validateBareString (s : List Char) : Except GoErr Unit :=
  if s.any isBareForbidden then .error (baseErr .invalidString) else .ok ()

/-- Model of `splitTableKey`: split the table path on dots and validate
every part, reporting the first invalid part as `errInvalidTableName`. -/
def splitTableKey (key : List Char) : Except GoErr (List (List Char)) :=
  let parts := splitOnDot key
  match parts.find? (fun p => !isValidKey p) with
  | some p => .error (errorf "splitTableKey".data (baseErr .invalidTableName) [.raw p])
  | none => .ok parts

example : isValidKey "a_B-9".data = true := rfl
example : isValidKey "9a".data = false := rfl
example : isValidKey "".data = false := rfl
example : (validateBareString "x,y".data).isOk = true := rfl
example : (validateBareString "x y".data).isOk = false := rfl

/-- ASCII decimal digit test. -/
def isDigitGo (c : Char) : Bool := '0' ≤ c && c ≤ '9'

/-- Numeric value of a digit character. -/
def digitVal (c : Char) : Nat := c.toNat - '0'.toNat

/-- Accumulate a run of decimal digits into a natural number; `none` on
the first non-digit. -/
def readDigitsAux (acc : Nat) : List Char → Option Nat
  | [] => some acc
  | c :: rest =>
      if isDigitGo c then readDigitsAux (acc * 10 + digitVal c) rest else none

/-- Model of the digit phase of `strconv.ParseInt(s, 10, 64)`: a
non-empty, all-digit string. -/
def readDigits : List Char → Option Nat
  | [] => none
  | s => readDigitsAux 0 s

/-- Model of `strconv.ParseInt(val, 10, 64)`: optional single sign,
non-empty digits, result range-checked against int64; `none` covers both
syntax and range (`ErrRange`) failures, which `parseNumber` treats
alike. -/
def parseIntGo (s : List Char) : Option Int :=
  match s with
  | [] => none
  | '+' :: rest =>
      (readDigits rest).bind fun n =>
        if (n : Int) ≤ 2 ^ 63 - 1 then some (n : Int) else none
  | '-' :: rest =>
      (readDigits rest).bind fun n =>
        if (n : Int) ≤ 2 ^ 63 then some (-(n : Int)) else none
  | _ =>
      (readDigits s).bind fun n =>
        if (n : Int) ≤ 2 ^ 63 - 1 then some (n : Int) else none

/-- ASCII lower-casing, for `strconv`'s case-insensitive special-value
match and for `strings.EqualFold` in `marshalString` (all inputs here are
ASCII). -/
def lowerAscii (c : Char) : Char :=
  if 'A' ≤ c && c ≤ 'Z' then Char.ofNat (c.toNat + 32) else c

/-- ASCII `strings.EqualFold`. -/
def eqFold (a b : List Char) : Bool :=
  a.map lowerAscii = b.map lowerAscii

/-- Leading digit run and remainder. -/
def spanDigits : List Char → (List Char × List Char)
  | [] => ([], [])
  | c :: rest =>
      if isDigitGo c then
        let p := spanDigits rest
        (c :: p.1, p.2)
      else ([], c :: rest)

/-- Fold a digit string (already validated) into a natural number. -/
def digitsToNat (ds : List Char) : Nat :=
  ds.foldl (fun acc c => acc * 10 + digitVal c) 0

/-- Model of `strconv`'s `special`: case-insensitive `inf`/`infinity`
with optional sign, and unsigned `nan` (a signed `nan` is rejected,
matching the `switch` fallthrough structure in `strconv.special`). -/
def parseFloatSpecial (s : List Char) : Option GoFloat :=
  match s with
  | [] => none
  | c :: rest =>
      if c = '+' || c = '-' then
        if eqFold rest "inf".data || eqFold rest "infinity".data then
          some (.inf (c = '-'))
        else none
      else if eqFold s "inf".data || eqFold s "infinity".data then
        some (.inf false)
      else if eqFold s "nan".data then some .nan
      else none

/-- Strip factors of 10 from the mantissa into the exponent, giving the
canonical `GoFloat.finite` representation; the fuel is any bound on the
number of strippable zeros. -/
def stripTens : Nat → Int → Int → (Int × Int)
  | 0, m, e => (m, e)
  | f + 1, m, e =>
      if m ≠ 0 && m % 10 == 0 then stripTens f (m / 10) (e + 1) else (m, e)

/-- Canonical finite float from a decimal mantissa/exponent pair. -/
def mkFinite (m : Int) (e : Int) : GoFloat :=
  if m = 0 then .finite 0 0
  else
    let p := stripTens m.natAbs m e
    .finite p.1 p.2

/-- Does `m * 10^e` reach the smallest magnitude that
`strconv.ParseFloat` reports as overflow to infinity (`ErrRange`)?  That
threshold is `2^1024 - 2^970 = 2^970 * (2^54 - 1)`, halfway between the
largest finite `float64` and `2^1024`, which rounds up by round-to-even.
The comparison is carried out on integers. -/
def floatOverflows (m : Int) (e : Int) : Bool :=
  let am := m.natAbs
  let bound : Nat := 2 ^ 970 * (2 ^ 54 - 1)
  if 0 ≤ e then bound ≤ am * 10 ^ e.toNat
  else bound * 10 ^ (-e).toNat ≤ am

/-- Does a non-zero `m * 10^e` underflow to zero with `ErrRange`?  The
threshold is `2^(-1075)`, half the smallest subnormal, which rounds down
by round-to-even.  The comparison is carried out on integers. -/
def floatUnderflows (m : Int) (e : Int) : Bool :=
  m ≠ 0 &&
    (if 0 ≤ e then false
     else m.natAbs * 2 ^ 1075 ≤ 10 ^ (-e).toNat)

/-- Model of `strconv.ParseFloat(val, 64)` on decimal syntax: optional
sign, digits with at most one dot (at least one digit overall), optional
`e`/`E` exponent with optional sign and non-empty digits.  `none` on a
syntax error and on `ErrRange` (overflow/underflow), both of which make
`parseNumber` report failure.  Hexadecimal floats and underscores are
outside this model (no input here uses them). -/
def parseFloatGo (s : List Char) : Option GoFloat :=
  match parseFloatSpecial s with
  | some f => some f
  | none =>
    match s with
    | [] => none
    | _ =>
      let sgn : Bool × List Char :=
        match s with
        | '+' :: r => (false, r)
        | '-' :: r => (true, r)
        | _ => (false, s)
      let neg := sgn.1
      let ipp := spanDigits sgn.2
      let fpp : Option (List Char) × List Char :=
        match ipp.2 with
        | '.' :: r =>
            let d := spanDigits r
            (some d.1, d.2)
        | other => (none, other)
      let mantDigits := ipp.1 ++ (fpp.1.getD [])
      if mantDigits = [] then none
      else
        let fracLen : Nat := (fpp.1.getD []).length
        let expPart : Option Int :=
          match fpp.2 with
          | [] => some 0
          | c :: r =>
              if c = 'e' || c = 'E' then
                match r with
                | '+' :: d => (readDigits d).map fun n => (n : Int)
                | '-' :: d => (readDigits d).map fun n => -(n : Int)
                | d => (readDigits d).map fun n => (n : Int)
              else none
        match expPart with
        | none => none
        | some ex =>
            let m : Int :=
              (if neg then -1 else 1) * (digitsToNat mantDigits : Int)
            let e : Int := ex - (fracLen : Int)
            if floatOverflows m e then none
            else if floatUnderflows m e then none
            else some (mkFinite m e)

/-- Model of `parser.parseNumber`: integer first, then float; `none` is
the `errInvalidNumber` fall-through that `parseValue` turns into the
bare-string path. -/
def parseNumberGo (val : List Char) : Option Val :=
  match parseIntGo val with
  | some i => some (.vInt i)
  | none =>
    match parseFloatGo val with
    | some f => some (.vFloat f)
    | none => none

example : parseIntGo "42".data = some 42 := rfl
example : parseIntGo "-42".data = some (-42) := rfl
example : parseIntGo "9223372036854775807".data = some 9223372036854775807 := rfl
example : parseIntGo "9223372036854775808".data = none := rfl
example : parseIntGo "-9223372036854775808".data = some (-9223372036854775808) := rfl
example : parseIntGo "3.5".data = none := rfl
example : parseFloatGo "3.14".data = some (.finite 314 (-2)) := by decide
example : parseFloatGo "-0.5".data = some (.finite (-5) (-1)) := by decide
example : parseFloatGo "2.33.45".data = none := rfl
example : parseFloatGo "nan".data = some .nan := rfl
example : parseFloatGo "x,y".data = none := rfl
example : parseNumberGo "9223372036854775808".data
    = some (.vFloat (.finite 9223372036854775808 0)) := by decide

/-- Worker for `splitArrayElements`, carrying the loop state of the Go
function: `inQuotes`, the previous raw character (for the
`input[i-1] != '\\'` test), the current element accumulated in reverse,
and the elements emitted so far. -/
def splitArrElemsAux (inQuotes : Bool) (prev : Option Char)
    (current : List Char) (result : List (List Char)) :
    List Char → List (List Char)
  | [] => if current.isEmpty then result else result ++ [trimSpace current.reverse]
  | ch :: rest =>
      if ch = '"' then
        let inQ := if prev = some '\\' then inQuotes else !inQuotes
        splitArrElemsAux inQ (some ch) (ch :: current) result rest
      else if ch = ',' then
        if !inQuotes then
          if current.isEmpty then
            splitArrElemsAux inQuotes (some ch) [] result rest
          else
            splitArrElemsAux inQuotes (some ch) []
              (result ++ [trimSpace current.reverse]) rest
        else splitArrElemsAux inQuotes (some ch) (ch :: current) result rest
      else splitArrElemsAux inQuotes (some ch) (ch :: current) result rest

/-- Model of `splitArrayElements`: split array content on commas outside
double quotes (quote state toggles on every unescaped `"`); elements are
trimmed and empty elements are dropped.  There is no bracket-depth
tracking in the Go function, so commas inside nested `[...]` also
split. -/
def splitArrayElements (input : List Char) : List (List Char) :=
  splitArrElemsAux false none [] [] input

example : splitArrayElements "1, 2".data = ["1".data, "2".data] := rfl
example : splitArrayElements "\"a,b\", c".data = ["\"a,b\"".data, "c".data] := rfl
example : splitArrayElements "[1,2],[3,4]".data
    = ["[1".data, "2]".data, "[3".data, "4]".data] := rfl

/-- The escape-resolving loop of `parseQuotedString`, with its `escaped`
flag; reaching the end while `escaped` is set is
`errUnterminatedEscape`. -/
def unescapeLoop (escaped : Bool) : List Char → Except GoErr (List Char)
  | [] =>
      if escaped then .error (baseErr .unterminatedEscape) else .ok []
  | c :: rest =>
      if escaped then
        match c with
        | '\\' => (unescapeLoop false rest).map (fun l => '\\' :: l)
        | '"' => (unescapeLoop false rest).map (fun l => '"' :: l)
        | 't' => (unescapeLoop false rest).map (fun l => '\t' :: l)
        | 'n' => (unescapeLoop false rest).map (fun l => '\n' :: l)
        | 'r' => (unescapeLoop false rest).map (fun l => '\r' :: l)
        | _ => .error (errorf "parser.parseQuotedString".data
                 (baseErr .invalidEscape) [.raw [c]])
      else if c = '\\' then unescapeLoop true rest
      else (unescapeLoop false rest).map (fun l => c :: l)

/-- Model of `parser.parseQuotedString` on a value starting with `"`:
require a closing `"`, strip both quotes, resolve the five escapes.  On
the one-character value `"` the Go code panics at `val[1:len(val)-1]`
(slice bounds `[1:0]`); that unreachable-in-practice case is modelled as
the `goPanic` kind. -/
def parseQuotedString (val : List Char) : Except GoErr (List Char) :=
  if val.getLast? ≠ some '"' then
    .error (errorf "parser.parseQuotedString".data (baseErr .unterminatedString))
  else if val.length == 1 then .error (baseErr .goPanic)
  else
    unescapeLoop false ((val.drop 1).dropLast)

example : parseQuotedString "\"a\\tb\"".data = .ok "a\tb".data := rfl
example : (parseQuotedString "\"x".data).isOk = false := rfl
example : parseQuotedString "\"line1\\nline2\"".data = .ok "line1\nline2".data := rfl

mutual
/-- Model of `parser.parseValue`, with fuel (see the header comment):
trim, reject empty, then dispatch — array, quoted string, the two boolean
literals, number, bare string. -/
def parseValueF : Nat → List Char → Except GoErr Val
  | 0, _ => .error (baseErr .outOfFuel)
  | fuel + 1, v =>
      let val := trimSpace v
      if val.isEmpty then
        .error (errorf "parser.parseValue".data (baseErr .emptyValue))
      else if val.head? = some '[' then
        parseArrayF fuel val
      else if val.head? = some '"' then
        (parseQuotedString val).map .vStr
      else if val = "true".data then .ok (.vBool true)
      else if val = "false".data then .ok (.vBool false)
      else
        match parseNumberGo val with
        | some n => .ok n
        | none =>
            match validateBareString val with
            | .error e => .error (errorf "parser.parseValue".data e)
            | .ok _ => .ok (.vStr val)

/-- Model of `parser.parseArray` on a value starting with `[`: require a
closing `]`, split the interior with `splitArrayElements`, parse element
0, then the rest under the first element's reflect type. -/
def parseArrayF : Nat → List Char → Except GoErr Val
  | 0, _ => .error (baseErr .outOfFuel)
  | fuel + 1, val =>
      if val.getLast? ≠ some ']' then
        .error (errorf "parser.parseArray".data (baseErr .unterminatedArray))
      else if val = "[]".data then .ok (.vArr [])
      else
        let content := trimSpace ((val.drop 1).dropLast)
        let elements := splitArrayElements content
        match elements with
        | [] => .ok (.vArr [])
        | e0 :: rest =>
            match parseValueF fuel e0 with
            | .error err =>
                .error (errorf "parser.parseArray".data err [.elemIdx 0])
            | .ok firstElem =>
                (parseArrayElemsF fuel (typeOfVal firstElem) 1 rest).map
                  (fun vs => .vArr (firstElem :: vs))

/-- Model of the loop of `parser.parseArrayElements`: parse each further
element and require its reflect type to be assignable to (here: equal
to) the first element's type, else `errTypeMismatch [element i]`. -/
def parseArrayElemsF : Nat → GoType → Nat → List (List Char) → Except GoErr (List Val)
  | 0, _, _, _ => .error (baseErr .outOfFuel)
  | _ + 1, _, _, [] => .ok []
  | fuel + 1, elementType, i, e :: rest =>
      match parseValueF fuel e with
      | .error err =>
          .error (errorf "parser.parseArrayElements".data err [.elemIdx i])
      | .ok v =>
          if typeOfVal v ≠ elementType then
            .error (errorf "parser.parseArrayElements".data
              (baseErr .typeMismatch) [.elemIdx i])
          else
            (parseArrayElemsF fuel elementType (i + 1) rest).map (fun vs => v :: vs)
end

/-- Fuel always sufficient for `parseValueF` on input `v`: array nesting
strictly shrinks the value text, so `length + 1` levels are enough. -/
def valueFuel (v : List Char) : Nat := v.length + 1

/-- Entry point used by `parseLine` for a value substring. -/
def parseValueGo (v : List Char) : Except GoErr Val :=
  parseValueF (valueFuel v) v

example : parseValueGo "42".data = .ok (.vInt 42) := rfl
example : parseValueGo "true".data = .ok (.vBool true) := rfl
example : parseValueGo "\"a b\"".data = .ok (.vStr "a b".data) := rfl
example : parseValueGo "x,y".data = .ok (.vStr "x,y".data) := rfl
example : parseValueGo "[1, 2]".data = .ok (.vArr [.vInt 1, .vInt 2]) := rfl
example : parseValueGo "[[1], [2]]".data
    = .ok (.vArr [.vArr [.vInt 1], .vArr [.vInt 2]]) := rfl
example : failsWith (parseValueGo "[1, true]".data) .typeMismatch = true := rfl
example : failsWith (parseValueGo "[[1,2],[3,4]]".data) .unterminatedArray = true := rfl

/-- Model of `tableGroup`.  The Go struct also carries its `name` and a
`parent` back-reference; in this variant neither is ever read after
construction (`flattenTable` uses the child-map keys), so they are
omitted.  Both Go maps are modelled as association lists in
first-insertion order. -/
structure TableGroup where
  values : List (List Char × Val)
  children : List (List Char × TableGroup)

/-- The fresh `newTableGroup` with empty maps. -/
def emptyTG : TableGroup := ⟨[], []⟩

/-- Association-list membership test for a Go map key. -/
def containsKeyA {A : Type} : List (List Char × A) → List Char → Bool
  | [], _ => false
  | (n, _) :: rest, k => n = k || containsKeyA rest k

/-- Association-list lookup for a Go map key. -/
def lookupA {A : Type} : List (List Char × A) → List Char → Option A
  | [], _ => none
  | (n, v) :: rest, k => if n = k then some v else lookupA rest k

/-- Replace the entry at an existing key in an association list. -/
def updateA {A : Type} : List (List Char × A) → List Char → A → List (List Char × A)
  | [], _, _ => []
  | (n, v) :: rest, k, w =>
      if n = k then (n, w) :: rest else (n, v) :: updateA rest k w

/-- The table-walking loop shared by `parseTableHeader` and the dotted-key
branch of `parseLine`: descend from `g` along `path`, creating any missing
child tables (`newTableGroup` + insertion into `children`). -/
def ensurePath (g : TableGroup) : List (List Char) → TableGroup
  | [] => g
  | k :: rest =>
      match lookupA g.children k with
      | some child =>
          { g with children := updateA g.children k (ensurePath child rest) }
      | none =>
          { g with children := g.children ++ [(k, ensurePath emptyTG rest)] }

/-- Follow an existing path down the tree. -/
def getAtPath (g : TableGroup) : List (List Char) → Option TableGroup
  | [] => some g
  | k :: rest =>
      match lookupA g.children k with
      | some child => getAtPath child rest
      | none => none

/-- Does `values[key]` exist at the table reached by `path`?  This is the
`if _, exists := current.values[key]` first-wins guard of
`parseLine`. -/
def hasValueAt (g : TableGroup) (path : List (List Char)) (k : List Char) : Bool :=
  match getAtPath g path with
  | some t => containsKeyA t.values k
  | none => false

/-- Store `current.values[key] = v` at the table reached by `path` (the
path exists whenever this is called; a missing path leaves the tree
unchanged). -/
def insertValueAt (g : TableGroup) (path : List (List Char)) (k : List Char) (v : Val) :
    TableGroup :=
  match path with
  | [] => { g with values := g.values ++ [(k, v)] }
  | p :: rest =>
      match lookupA g.children p with
      | some child => { g with children := updateA g.children p (insertValueAt child rest k v) }
      | none => g

mutual
/-- Model of `flattenTable`: the key-value entries of the group plus, for
each child whose flattening is non-empty, one entry holding the child's
flattened map.  In Go both loops write into one `map[string]any`, values
first, so a non-empty child overwrites a value entry of the same name;
the association list mirrors that by filtering such values out. -/
def flattenTable (g : TableGroup) : List (List Char × Val) :=
  match g with
  | .mk values children =>
      let kids := flattenChildren children
      values.filter (fun p => !containsKeyA kids p.1) ++ kids

/-- Flatten each child in order, dropping children whose flattened map is
empty (`if len(childMap) > 0`). -/
def flattenChildren : List (List Char × TableGroup) → List (List Char × Val)
  | [] => []
  | (n, c) :: rest =>
      let m := flattenTable c
      (if m.isEmpty then [] else [(n, .vTable m)]) ++ flattenChildren rest
end

/-- Model of `parser.parseTableHeader` on a line bracketed `[...]`:
trim the interior, reject empty, split and validate the dotted path, then
walk/create the table hierarchy.  Returns the new root and the new
current-table path. -/
def parseTableHeaderGo (root : TableGroup) (line : List Char) :
    Except GoErr (TableGroup × List (List Char)) :=
  let tablePath := trimSpace ((line.drop 1).dropLast)
  if tablePath.isEmpty then
    .error (errorf "parser.parseTableHeader".data (baseErr .invalidTableHeader))
  else
    match splitTableKey tablePath with
    | .error e => .error (errorf "parser.parseTableHeader".data e)
    | .ok parts => .ok (ensurePath root parts, parts)

/-- Model of `parser.parseLine` on a key-value line, acting on the root
tree and the current-table path `cur`: split at the first `=`, trim and
validate the key (every dotted part), navigate/create intermediate tables
for dotted keys, then — only if the final key is not already assigned in
the target table — lex the value text and store the result.  A duplicate
key returns success immediately, before the value text is looked at. -/
def parseLineGo (root : TableGroup) (cur : List (List Char)) (line : List Char) :
    Except GoErr TableGroup :=
  match splitFirstEq line with
  | none => .error (errorf "parser.parseLine".data (baseErr .invalidFormat))
  | some (l, r) =>
      let key := trimSpace l
      let value := trimSpace r
      if key.isEmpty then
        .error (errorf "parser.parseLine".data (baseErr .missingKey))
      else
        let keyParts := splitOnDot key
        match keyParts.find? (fun p => !isValidKey p) with
        | some p =>
            .error (errorf "parser.parseLine".data (baseErr .invalidKey) [.raw p])
        | none =>
            let navigated : TableGroup × List (List Char) × List Char :=
              if keyParts.length > 1 then
                (ensurePath root (cur ++ keyParts.dropLast),
                 cur ++ keyParts.dropLast, keyParts.getLastD [])
              else (root, cur, key)
            let root1 := navigated.1
            let tgt := navigated.2.1
            let k := navigated.2.2
            if hasValueAt root1 tgt k then .ok root1
            else
              match parseValueGo value with
              | .error e =>
                  .error (errorf "parser.parseLine".data e [.keyCtx k])
              | .ok v => .ok (insertValueAt root1 tgt k v)

/-- The per-line dispatch of `parser.parse`: skip blank and full-line
comment lines, truncate at an inline `" #"`, then classify as table
header (`[` … `]`) or key-value line; errors are annotated with the
1-based line number. -/
def parseOneLine (root : TableGroup) (cur : List (List Char)) (n : Nat)
    (rawLine : List Char) : Except GoErr (TableGroup × List (List Char)) :=
  let line := trimSpace rawLine
  if line.isEmpty || line.head? = some '#' then .ok (root, cur)
  else
    let line := if hasSpaceHash line then trimSpace (stripComment line) else line
    if line.head? = some '[' && line.getLast? = some ']' then
      match parseTableHeaderGo root line with
      | .error e => .error (errorf "parser.parse".data e [.lineNum n])
      | .ok rc => .ok rc
    else
      match parseLineGo root cur line with
      | .error e => .error (errorf "parser.parse".data e [.lineNum n])
      | .ok root1 => .ok (root1, cur)

/-- The scanner loop of `parser.parse`, threading root, current path and
line number. -/
def parseLinesGo (root : TableGroup) (cur : List (List Char)) (n : Nat) :
    List (List Char) → Except GoErr TableGroup
  | [] => .ok root
  | l :: rest =>
      match parseOneLine root cur (n + 1) l with
      | .error e => .error e
      | .ok (root1, cur1) => parseLinesGo root1 cur1 (n + 1) rest

/-- Model of `parser.parse`: run the line loop from an empty root with
the current table set to the root. -/
def parseDoc (data : List Char) : Except GoErr TableGroup :=
  parseLinesGo emptyTG [] 0 (splitLinesGo data)

/-- The dynamic type of the target `v any` of `Unmarshal`: a
`*map[string]any`, a struct pointer, or anything else.  Only the first
passes the `v.(*map[string]any)` type assertion. -/
inductive UTarget where
  | mapPtr
  | structPtr
  | otherTarget
  deriving DecidableEq, Repr

/-- Model of `Unmarshal`: parse, flatten the root table, then require the
target to be a `*map[string]any`; every other target — including a struct
pointer — gets `errInvalidTarget`.  On success the flattened map is the
value stored through the pointer. -/
def UnmarshalGo (data : List Char) (tgt : UTarget) :
    Except GoErr (List (List Char × Val)) :=
  match parseDoc data with
  | .error e => .error (errorf "Unmarshal".data e)
  | .ok root =>
      let result := flattenTable root
      match tgt with
      | .mapPtr => .ok result
      | _ => .error (errorf "Unmarshal".data (baseErr .invalidTarget))

/-- Convenience wrapper: `Unmarshal` into a map target. -/
def unmarshalMap (s : String) : Except GoErr (List (List Char × Val)) :=
  UnmarshalGo s.data .mapPtr

example : unmarshalMap "a = 1" = .ok [("a".data, .vInt 1)] := rfl
example : unmarshalMap "a = 1\na = 2" = .ok [("a".data, .vInt 1)] := rfl
example : unmarshalMap "[s]\nx = 1\n[s]\ny = 2"
    = .ok [("s".data, .vTable [("x".data, .vInt 1), ("y".data, .vInt 2)])] := rfl
example : unmarshalMap "a.b = 1"
    = .ok [("a".data, .vTable [("b".data, .vInt 1)])] := rfl
example : unmarshalMap "name = \"web\" # or \"this\" one"
    = .ok [("name".data, .vStr "web".data)] := rfl
example : failsWith (unmarshalMap "a = ") .emptyValue = true := rfl
example : failsWith (unmarshalMap "a b") .invalidFormat = true := rfl
example : failsWith (UnmarshalGo "a = 1".data .structPtr) .invalidTarget = true := rfl

/-- Byte-wise lexicographic strict order on strings, the order used by
`sort.Strings` (all keys here are ASCII, where byte order and code-point
order coincide). -/
def goLtStr : List Char → List Char → Bool
  | [], [] => false
  | [], _ :: _ => true
  | _ :: _, [] => false
  | a :: as, b :: bs =>
      if a.toNat < b.toNat then true
      else if b.toNat < a.toNat then false
      else goLtStr as bs

/-- The matching non-strict order, as a proposition. -/
def goLeStr (a b : List Char) : Prop := goLtStr b a = false

instance : DecidableRel goLeStr := fun a b => by
  unfold goLeStr; infer_instance

theorem char_eq_of_toNat_eq {a b : Char} (h : a.toNat = b.toNat) : a = b :=
  Char.ext (UInt32.ext h)

theorem goLtStr_total : ∀ a b : List Char,
    goLtStr a b = true ∨ goLtStr b a = true ∨ a = b
  | [], [] => Or.inr (Or.inr rfl)
  | [], _ :: _ => Or.inl (by simp [goLtStr])
  | _ :: _, [] => Or.inr (Or.inl (by simp [goLtStr]))
  | a :: as, b :: bs => by
      rcases Nat.lt_trichotomy a.toNat b.toNat with h | h | h
      · exact Or.inl (by simp [goLtStr, h])
      · have hab : a = b := char_eq_of_toNat_eq h
        subst hab
        rcases goLtStr_total as bs with h1 | h1 | h1
        · exact Or.inl (by simp [goLtStr, h1])
        · exact Or.inr (Or.inl (by simp [goLtStr, h1]))
        · exact Or.inr (Or.inr (by rw [h1]))
      · exact Or.inr (Or.inl (by simp [goLtStr, h, Nat.lt_asymm h]))

theorem goLtStr_asymm : ∀ a b : List Char,
    goLtStr a b = true → goLtStr b a = false
  | [], [] => by simp [goLtStr]
  | [], _ :: _ => by simp [goLtStr]
  | _ :: _, [] => by simp [goLtStr]
  | a :: as, b :: bs => by
      simp only [goLtStr]
      by_cases h1 : a.toNat < b.toNat
      · have h2 : ¬ b.toNat < a.toNat := by omega
        simp [h1, h2]
      · by_cases h2 : b.toNat < a.toNat
        · simp [h1, h2]
        · simp [h1, h2]
          exact goLtStr_asymm as bs

theorem goLtStr_trans : ∀ a b c : List Char,
    goLtStr a b = true → goLtStr b c = true → goLtStr a c = true
  | [], [], _ => by simp [goLtStr]
  | [], _ :: _, [] => by simp [goLtStr]
  | [], _ :: _, _ :: _ => by simp [goLtStr]
  | _ :: _, [], _ => by simp [goLtStr]
  | _ :: _, _ :: _, [] => by simp [goLtStr]
  | a :: as, b :: bs, c :: cs => by
      simp only [goLtStr]
      rcases Nat.lt_trichotomy a.toNat b.toNat with h1 | h1 | h1 <;>
        rcases Nat.lt_trichotomy b.toNat c.toNat with h2 | h2 | h2
      · have hac : a.toNat < c.toNat := by omega
        simp [hac]
      · have hac : a.toNat < c.toNat := by omega
        simp [hac]
      · have hbc : ¬ b.toNat < c.toNat := by omega
        simp [hbc, h2]
      · have hac : a.toNat < c.toNat := by omega
        simp [hac]
      · have na : ¬ a.toNat < b.toNat := by omega
        have nb : ¬ b.toNat < a.toNat := by omega
        have nc : ¬ b.toNat < c.toNat := by omega
        have nd : ¬ c.toNat < b.toNat := by omega
        have ne2 : ¬ a.toNat < c.toNat := by omega
        have nf : ¬ c.toNat < a.toNat := by omega
        simp [na, nb, nc, nd, ne2, nf]
        exact goLtStr_trans as bs cs
      · have hbc : ¬ b.toNat < c.toNat := by omega
        simp [hbc, h2]
      · have nab : ¬ a.toNat < b.toNat := by omega
        simp [nab, h1]
      · have nab : ¬ a.toNat < b.toNat := by omega
        simp [nab, h1]
      · have nab : ¬ a.toNat < b.toNat := by omega
        simp [nab, h1]

instance : IsTotal (List Char) goLeStr := ⟨fun a b => by
  cases h : goLtStr a b with
  | true => exact Or.inl (goLtStr_asymm a b h)
  | false => exact Or.inr h⟩

instance : IsTrans (List Char) goLeStr := ⟨fun a b c hab hbc => by
  unfold goLeStr at *
  cases hca : goLtStr c a with
  | false => rfl
  | true =>
    rcases goLtStr_total a b with h | h | h
    · have hcb := goLtStr_trans c a b hca h
      rw [hcb] at hbc
      cases hbc
    · rw [h] at hab
      cases hab
    · subst h
      rw [hca] at hbc
      cases hbc⟩

instance : IsAntisymm (List Char) goLeStr := ⟨fun a b hab hba => by
  unfold goLeStr at *
  rcases goLtStr_total a b with h | h | h
  · rw [h] at hba
    cases hba
  · rw [h] at hab
    cases hab
  · exact h⟩

/-- Model of `sort.Strings(sortedKeys)`: a sorted permutation of the key
list under byte-lexicographic order (with unique keys the sorted
permutation is unique, so any correct sort agrees). -/
def sortStringsGo (ks : List (List Char)) : List (List Char) :=
  List.insertionSort goLeStr ks

example : sortStringsGo ["port".data, "name".data, "db".data]
    = ["db".data, "name".data, "port".data] := by decide

/-- Decimal digit character for a value below 10. -/
def digitChar (n : Nat) : Char := Char.ofNat ('0'.toNat + n)

/-- Decimal digits of a natural number (fuelled worker; the fuel `n + 1`
always suffices). -/
def natDigitsAux : Nat → Nat → List Char → List Char
  | 0, _, acc => acc
  | f + 1, n, acc =>
      if n < 10 then digitChar n :: acc
      else natDigitsAux f (n / 10) (digitChar (n % 10) :: acc)

/-- Decimal rendering of a natural number. -/
def formatNat (n : Nat) : List Char := natDigitsAux (n + 1) n []

/-- Model of `strconv.FormatInt(i, 10)` as used by `marshalInt` (the
`marshalInt` bounds check `i > math.MaxInt64 || i < math.MinInt64` can
never fire on an `int64` and is dead code, so it is not modelled). -/
def formatIntGo (i : Int) : List Char :=
  if i < 0 then '-' :: formatNat i.natAbs else formatNat i.toNat

example : formatIntGo 8080 = "8080".data := rfl
example : formatIntGo (-42) = "-42".data := rfl

/-- Left-pad a digit string with zeros to width `k`. -/
def padZeros (k : Nat) (ds : List Char) : List Char :=
  List.replicate (k - ds.length) '0' ++ ds

/-- Model of `strconv.FormatFloat(f, 'f', -1, 64)` on the exact-decimal
float abstraction: print the exact decimal value of `m * 10^e` (for the
values arising in this development the exact decimal is also Go's
shortest round-tripping form).  Infinities render as `+Inf`/`-Inf` and
the not-a-number value as `NaN`, as in `strconv`. -/
def formatFloatGo : GoFloat → List Char
  | .nan => "NaN".data
  | .inf true => "-Inf".data
  | .inf false => "+Inf".data
  | .finite m e =>
      let sign : List Char := if m < 0 then ['-'] else []
      let am := m.natAbs
      if 0 ≤ e then sign ++ formatNat (am * 10 ^ e.toNat)
      else
        let k := (-e).toNat
        sign ++ formatNat (am / 10 ^ k) ++ '.' :: padZeros k (formatNat (am % 10 ^ k))

/-- Model of `marshaler.marshalFloat`: format with minimal precision and
append `.0` when no decimal point is present. -/
def marshalFloatGo (f : GoFloat) : List Char :=
  let s := formatFloatGo f
  if s.any (fun c => c = '.') then s else s ++ ".0".data

example : marshalFloatGo (.finite 314 (-2)) = "3.14".data := rfl
example : marshalFloatGo (.finite 42 0) = "42.0".data := rfl
example : marshalFloatGo (.finite (-5) (-1)) = "-0.5".data := rfl

/-- The quoting condition of `marshaler.marshalString`: empty strings,
strings containing a character of the class `" \t\n\r\"\\#=[]"` (the same
class `validateBareString` rejects — note again: no comma), the two
boolean words in any letter case, and strings starting with `-` or a
digit. -/
def needsQuotes (s : List Char) : Bool :=
  s.isEmpty || s.any isBareForbidden ||
  eqFold s "true".data || eqFold s "false".data ||
  (match s.head? with
   | some c => c = '-' || isDigitGo c
   | none => false)

/-- The escape re-insertion of `marshalString`'s quoted branch. -/
def escapeChars : List Char → List Char
  | [] => []
  | c :: rest =>
      (match c with
       | '"' => ['\\', '"']
       | '\\' => ['\\', '\\']
       | '\t' => ['\\', 't']
       | '\n' => ['\\', 'n']
       | '\r' => ['\\', 'r']
       | other => [other]) ++ escapeChars rest

/-- Model of `marshaler.marshalString`: quote-and-escape when
`needsQuotes`, otherwise emit the string bare. -/
def marshalStringGo (s : List Char) : List Char :=
  if needsQuotes s then '"' :: escapeChars s ++ ['"'] else s

example : marshalStringGo "x,y".data = "x,y".data := rfl
example : marshalStringGo "a b".data = "\"a b\"".data := rfl
example : marshalStringGo "True".data = "\"True\"".data := rfl

/-- Model of `strings.Join(path, ".")`. -/
def joinDots : List (List Char) → List Char
  | [] => []
  | [p] => p
  | p :: rest => p ++ '.' :: joinDots rest

/-- Is a value a Go map (`reflect.Map` after interface unwrapping)?  The
partition criterion of `marshalMap`. -/
def isTableVal : Val → Bool
  | .vTable _ => true
  | _ => false

/-- Model of `lenNonEmpty`: the number of child maps with at least one
entry. -/
def lenNonEmptyGo (entries : List (List Char × Val)) : Nat :=
  (entries.filter (fun p =>
    match p.2 with
    | .vTable t => !t.isEmpty
    | _ => false)).length

/-- The number of non-map values, `len(basicKVs)`. -/
def lenBasics (entries : List (List Char × Val)) : Nat :=
  (entries.filter (fun p => !isTableVal p.2)).length

/-- The number of map values, `len(tables)`. -/
def lenTables (entries : List (List Char × Val)) : Nat :=
  (entries.filter (fun p => isTableVal p.2)).length

mutual
/-- Model of `marshaler.marshalValue(v, path)`: maps keep the table path
context, everything else goes through `marshal`.  Fuelled (see header
comment). -/
def marshalValueF : Nat → Val → List (List Char) → Except GoErr (List Char)
  | 0, _, _ => .error (baseErr .outOfFuel)
  | fuel + 1, v, path =>
      match v with
      | .vTable entries => marshalMapF fuel entries path
      | other => marshalF fuel other

/-- Model of `marshaler.marshal(v)`: dispatch on the dynamic kind; a map
reached here is marshalled without path context. -/
def marshalF : Nat → Val → Except GoErr (List Char)
  | 0, _ => .error (baseErr .outOfFuel)
  | fuel + 1, v =>
      match v with
      | .vTable entries => marshalMapF fuel entries []
      | .vArr es => marshalArrayF fuel es
      | .vStr s => .ok (marshalStringGo s)
      | .vInt n => .ok (formatIntGo n)
      | .vFloat f => .ok (marshalFloatGo f)
      | .vBool b => .ok (if b then "true".data else "false".data)

/-- Model of `marshaler.marshalMap(v, path)`: empty maps emit nothing;
keys are validated (in map order) and sorted; a `[dotted.path]` header is
written when there is a path and either basic key-values exist or no
child tables exist; then the basic key-values in sorted order, a blank
line if non-empty tables follow, and the non-empty child tables in
sorted order separated by blank lines. -/
def marshalMapF : Nat → List (List Char × Val) → List (List Char) →
    Except GoErr (List Char)
  | 0, _, _ => .error (baseErr .outOfFuel)
  | fuel + 1, entries, path =>
      if entries.isEmpty then .ok []
      else
        let keys := entries.map Prod.fst
        match keys.find? (fun k => !isValidKey k) with
        | some k =>
            .error (errorf "marshaler.marshalMap".data (baseErr .invalidKey) [.raw k])
        | none =>
            let sortedKeys := sortStringsGo keys
            let header : List Char :=
              if !path.isEmpty && (lenBasics entries > 0 || lenTables entries == 0)
              then '[' :: (joinDots path ++ "]\n".data)
              else []
            match marshalBasicsF fuel entries sortedKeys with
            | .error e => .error e
            | .ok basics =>
                let blank : List Char :=
                  if lenBasics entries > 0 && lenNonEmptyGo entries > 0
                  then "\n".data else []
                match marshalTablesF fuel entries sortedKeys path true with
                | .error e => .error e
                | .ok tabs => .ok (header ++ basics ++ blank ++ tabs)

/-- The basic key-value loop of `marshalMap`: for each sorted key bound
to a non-map value, emit `key = value\n`. -/
def marshalBasicsF : Nat → List (List Char × Val) → List (List Char) →
    Except GoErr (List Char)
  | 0, _, _ => .error (baseErr .outOfFuel)
  | _ + 1, _, [] => .ok []
  | fuel + 1, entries, k :: ks =>
      match lookupA entries k with
      | some v =>
          if isTableVal v then marshalBasicsF fuel entries ks
          else
            match marshalValueF fuel v [] with
            | .error e => .error (errorf "marshaler.marshalMap".data e [.keyCtx k])
            | .ok out =>
                match marshalBasicsF fuel entries ks with
                | .error e => .error e
                | .ok rest => .ok (k ++ " = ".data ++ out ++ ['\n'] ++ rest)
      | none => marshalBasicsF fuel entries ks

/-- The table loop of `marshalMap`: for each sorted key bound to a
non-empty map, recurse with the extended path, writing one blank line
between successive tables. -/
def marshalTablesF : Nat → List (List Char × Val) → List (List Char) →
    List (List Char) → Bool → Except GoErr (List Char)
  | 0, _, _, _, _ => .error (baseErr .outOfFuel)
  | _ + 1, _, [], _, _ => .ok []
  | fuel + 1, entries, k :: ks, path, first =>
      match lookupA entries k with
      | some (.vTable tentries) =>
          if tentries.isEmpty then marshalTablesF fuel entries ks path first
          else
            match marshalValueF fuel (.vTable tentries) (path ++ [k]) with
            | .error e =>
                .error (errorf "marshaler.marshalMap".data e [.keyCtx (joinDots (path ++ [k]))])
            | .ok sub =>
                match marshalTablesF fuel entries ks path false with
                | .error e => .error e
                | .ok rest =>
                    .ok ((if first then [] else ['\n']) ++ sub ++ rest)
      | _ => marshalTablesF fuel entries ks path first

/-- Model of `marshaler.marshalArray`: `[]` for empty slices, otherwise
the elements joined by `", "` inside brackets.  The element-type
homogeneity check in the Go source compares the static element types
`v.Index(i).Type()`, which are equal for every well-typed Go slice, so it
can never fail and is not modelled. -/
def marshalArrayF : Nat → List Val → Except GoErr (List Char)
  | 0, _ => .error (baseErr .outOfFuel)
  | fuel + 1, es =>
      if es.isEmpty then .ok "[]".data
      else
        match marshalElemsF fuel es true with
        | .error e => .error e
        | .ok inner => .ok ('[' :: inner ++ [']'])

/-- The element loop of `marshalArray`. -/
def marshalElemsF : Nat → List Val → Bool → Except GoErr (List Char)
  | 0, _, _ => .error (baseErr .outOfFuel)
  | _ + 1, [], _ => .ok []
  | fuel + 1, v :: vs, first =>
      match marshalF fuel v with
      | .error e => .error e
      | .ok out =>
          match marshalElemsF fuel vs false with
          | .error e => .error e
          | .ok rest => .ok ((if first then [] else ", ".data) ++ out ++ rest)
end

mutual
/-- A computable size of a value, used to choose sufficient fuel. -/
def sizeVal : Val → Nat
  | .vStr _ => 1
  | .vInt _ => 1
  | .vFloat _ => 1
  | .vBool _ => 1
  | .vArr es => 1 + sizeValList es
  | .vTable es => 1 + sizeValEntries es

/-- Total size of a list of values. -/
def sizeValList : List Val → Nat
  | [] => 1
  | v :: vs => 1 + sizeVal v + sizeValList vs

/-- Total size of an association list of values. -/
def sizeValEntries : List (List Char × Val) → Nat
  | [] => 1
  | (_, v) :: vs => 1 + sizeVal v + sizeValEntries vs
end

/-- Model of `Marshal(v)` for a map argument (`anyToMap` copies a
`map[string]any` through unchanged; the struct branch of `anyToMap`,
which lowers a tagged struct to such a map, is not needed by any theorem
here and is not modelled; any other argument is `errUnsupported`).  The
fuel is chosen from the size of the value, which bounds the recursion
depth. -/
def MarshalGo (v : Val) : Except GoErr (List Char) :=
  match v with
  | .vTable _ => marshalValueF (sizeVal v + 1) v []
  | _ => .error (errorf "anyToMap".data (baseErr .unsupported))

example : MarshalGo (.vTable [("b".data, .vInt 2), ("a".data, .vInt 1)])
    = .ok "a = 1\nb = 2\n".data := rfl
example : MarshalGo (.vTable [("name".data, .vStr "web".data),
    ("db".data, .vTable [("host".data, .vStr "h".data)])])
    = .ok "name = web\n\n[db]\nhost = h\n".data := rfl
example : MarshalGo (.vTable [("a".data, .vArr [.vStr "x,y".data])])
    = .ok "a = [x,y]\n".data := rfl

theorem isBareKeyChar_not_space {c : Char} (h : isBareKeyChar c = true) :
    isSpaceGo c = false := by
  cases hs : isSpaceGo c with
  | false => rfl
  | true =>
    exfalso
    unfold isSpaceGo at hs
    simp only [Bool.or_eq_true, decide_eq_true_eq] at hs
    rcases hs with ((((h1 | h1) | h1) | h1) | h1) | h1 <;> subst h1 <;> revert h <;> decide

theorem isBareKeyChar_ne_eq {c : Char} (h : isBareKeyChar c = true) : c ≠ '=' := by
  rintro rfl
  revert h
  decide

theorem isBareKeyChar_ne_dot {c : Char} (h : isBareKeyChar c = true) : c ≠ '.' := by
  rintro rfl
  revert h
  decide

theorem isValidKey_chars {k : List Char} (h : isValidKey k = true) :
    ∀ c ∈ k, isBareKeyChar c = true := by
  cases k with
  | nil => simp [isValidKey] at h
  | cons c rest =>
      unfold isValidKey at h
      simp only [Bool.and_eq_true, List.all_eq_true] at h
      intro x hx
      rcases List.mem_cons.mp hx with rfl | hx
      · unfold isBareKeyChar
        simp [h.1]
      · exact h.2 x hx

theorem trimLeft_id_of_no_space {l : List Char}
    (h : ∀ c ∈ l, isSpaceGo c = false) : trimLeft l = l := by
  cases l with
  | nil => rfl
  | cons c rest =>
      unfold trimLeft
      rw [h c (List.mem_cons_self c rest)]
      simp

theorem trimSpace_id_of_no_space {l : List Char}
    (h : ∀ c ∈ l, isSpaceGo c = false) : trimSpace l = l := by
  unfold trimSpace
  rw [trimLeft_id_of_no_space h, trimLeft_id_of_no_space (by
    intro c hc
    exact h c (List.mem_reverse.mp hc)), List.reverse_reverse]

theorem splitFirstEq_append {k v : List Char} (h : ∀ c ∈ k, c ≠ '=') :
    splitFirstEq (k ++ '=' :: v) = some (k, v) := by
  induction k with
  | nil => rfl
  | cons c rest ih =>
      have hc : c ≠ '=' := h c (List.mem_cons_self c rest)
      have heq : splitFirstEq (c :: (rest ++ '=' :: v)) =
          (splitFirstEq (rest ++ '=' :: v)).map (fun p => (c :: p.1, p.2)) := by
        rw [splitFirstEq.eq_def]
        split
        · simp_all
        · simp_all
        · rename_i heq2
          injection heq2 with h1 h2
          subst h1
          subst h2
          rfl
      rw [List.cons_append, heq, ih (fun x hx => h x (List.mem_cons_of_mem c hx))]
      rfl

theorem splitOnDotAux_no_dot {l : List Char} (acc : List Char)
    (h : ∀ c ∈ l, c ≠ '.') : splitOnDotAux acc l = [acc.reverse ++ l] := by
  induction l generalizing acc with
  | nil => simp [splitOnDotAux.eq_def]
  | cons c rest ih =>
      have hc : c ≠ '.' := h c (List.mem_cons_self c rest)
      have heq : splitOnDotAux acc (c :: rest) = splitOnDotAux (c :: acc) rest := by
        rw [splitOnDotAux.eq_def]
        split
        · simp_all
        · simp_all
        · rename_i heq2
          injection heq2 with h1 h2
          subst h1
          subst h2
          rfl
      rw [heq, ih (c :: acc) (fun x hx => h x (List.mem_cons_of_mem c hx))]
      simp

theorem splitOnDot_no_dot {l : List Char} (h : ∀ c ∈ l, c ≠ '.') :
    splitOnDot l = [l] := by
  unfold splitOnDot
  rw [splitOnDotAux_no_dot [] h]
  simp

theorem updateA_lookup_self {A : Type} :
    ∀ (l : List (List Char × A)) (k : List Char) (v : A),
      lookupA l k = some v → updateA l k v = l
  | [], _, _ => by intro h; cases h
  | (n, w) :: rest, k, v => by
      intro h
      unfold lookupA at h
      unfold updateA
      by_cases hn : n = k
      · simp [hn] at h ⊢
        subst h
        rfl
      · simp [hn] at h ⊢
        exact updateA_lookup_self rest k v h

theorem ensurePath_of_exists :
    ∀ (path : List (List Char)) (root g : TableGroup),
      getAtPath root path = some g → ensurePath root path = root
  | [], _, _ => by intro _; rfl
  | k :: rest, root, g => by
      intro h
      obtain ⟨rv, rc⟩ := root
      unfold getAtPath at h
      unfold ensurePath
      cases hc : lookupA rc k with
      | none =>
          simp only at h hc
          rw [hc] at h
          cases h
      | some child =>
          simp only at h hc ⊢
          rw [hc] at h
          rw [ensurePath_of_exists rest child g h, updateA_lookup_self _ _ _ hc]

theorem lookupA_eq_none_iff {A : Type} :
    ∀ (l : List (List Char × A)) (k : List Char),
      lookupA l k = none ↔ k ∉ l.map Prod.fst
  | [], k => by
      simp only [lookupA, List.map_nil, List.not_mem_nil, not_false_iff]
  | (n, w) :: rest, k => by
      unfold lookupA
      by_cases hn : n = k
      · subst hn
        simp only [if_pos rfl, List.map_cons, List.mem_cons]
        constructor
        · intro h
          cases h
        · intro h
          exfalso
          apply h
          left
          first
            | rfl
            | trivial
      · rw [if_neg hn, lookupA_eq_none_iff rest k]
        simp only [List.map_cons, List.mem_cons]
        constructor
        · intro h hmem
          rcases hmem with heq | hmem
          · exact hn heq.symm
          · exact h hmem
        · intro h hmem
          exact h (Or.inr hmem)

theorem lookupA_some_mem {A : Type} :
    ∀ (l : List (List Char × A)) (k : List Char) (v : A),
      lookupA l k = some v → (k, v) ∈ l
  | [], _, _ => by intro h; cases h
  | (n, w) :: rest, k, v => by
      intro h
      unfold lookupA at h
      by_cases hn : n = k
      · subst hn
        rw [if_pos rfl] at h
        injection h with h
        subst h
        exact List.mem_cons_self _ _
      · rw [if_neg hn] at h
        exact List.mem_cons_of_mem _ (lookupA_some_mem rest k v h)

theorem mem_lookupA_of_nodup {A : Type} :
    ∀ (l : List (List Char × A)) (k : List Char) (v : A),
      (l.map Prod.fst).Nodup → (k, v) ∈ l → lookupA l k = some v
  | [], _, _ => by intro _ h; cases h
  | (n, w) :: rest, k, v => by
      intro hnd hm
      have hnd1 : (n :: rest.map Prod.fst).Nodup := by
        rw [List.map_cons] at hnd
        exact hnd
      have hnd2 := List.nodup_cons.mp hnd1
      rcases List.mem_cons.mp hm with heq | hm2
      · injection heq with h1 h2
        subst h1
        subst h2
        unfold lookupA
        rw [if_pos rfl]
      · have hk : n ≠ k := by
          rintro rfl
          exact hnd2.1 (List.mem_map_of_mem Prod.fst hm2)
        unfold lookupA
        rw [if_neg hk]
        exact mem_lookupA_of_nodup rest k v hnd2.2 hm2

theorem lookupA_perm_eq {A : Type} {l1 l2 : List (List Char × A)}
    (hnd : (l1.map Prod.fst).Nodup) (hp : l1.Perm l2) (k : List Char) :
    lookupA l1 k = lookupA l2 k := by
  have hnd2 : (l2.map Prod.fst).Nodup := ((hp.map Prod.fst).nodup_iff).mp hnd
  cases h1 : lookupA l1 k with
  | some v =>
      exact (mem_lookupA_of_nodup l2 k v hnd2 (hp.mem_iff.mp (lookupA_some_mem l1 k v h1))).symm
  | none =>
      cases h2 : lookupA l2 k with
      | none => rfl
      | some v =>
          exfalso
          have := lookupA_some_mem l2 k v h2
          have hmem : (k, v) ∈ l1 := hp.mem_iff.mpr this
          have := mem_lookupA_of_nodup l1 k v hnd hmem
          rw [h1] at this
          cases this

theorem parseLineGo_duplicate (root g : TableGroup) (cur : List (List Char))
    (k vtext : List Char) (hk : isValidKey k = true)
    (hg : getAtPath root cur = some g)
    (hv : containsKeyA g.values k = true) :
    parseLineGo root cur (k ++ '=' :: vtext) = .ok root := by
  have hchars := isValidKey_chars hk
  have hnoeq : ∀ c ∈ k, c ≠ '=' := fun c hc => isBareKeyChar_ne_eq (hchars c hc)
  have hnodot : ∀ c ∈ k, c ≠ '.' := fun c hc => isBareKeyChar_ne_dot (hchars c hc)
  have hnospace : ∀ c ∈ k, isSpaceGo c = false :=
    fun c hc => isBareKeyChar_not_space (hchars c hc)
  have hkne : k.isEmpty = false := by
    cases k
    · simp [isValidKey] at hk
    · rfl
  unfold parseLineGo
  rw [splitFirstEq_append hnoeq]
  simp only [trimSpace_id_of_no_space hnospace, hkne, splitOnDot_no_dot hnodot,
    Bool.false_eq_true, if_false, List.find?_cons, hk, Bool.not_true, List.find?_nil,
    List.length_cons, List.length_nil, gt_iff_lt, Nat.lt_irrefl, if_neg,
    hasValueAt, hg, hv, if_true]

theorem splitOnDotAux_append_dot {p : List Char} (acc t : List Char)
    (h : ∀ c ∈ p, c ≠ '.') :
    splitOnDotAux acc (p ++ '.' :: t) = (acc.reverse ++ p) :: splitOnDotAux [] t := by
  induction p generalizing acc with
  | nil => simp [splitOnDotAux]
  | cons c rest ih =>
      have hc : c ≠ '.' := h c (List.mem_cons_self c rest)
      have heq : splitOnDotAux acc (c :: (rest ++ '.' :: t)) =
          splitOnDotAux (c :: acc) (rest ++ '.' :: t) := by
        rw [splitOnDotAux.eq_def]
        split
        · simp_all
        · simp_all
        · rename_i heq2
          injection heq2 with h1 h2
          subst h1
          subst h2
          rfl
      rw [List.cons_append, heq, ih (c :: acc) (fun x hx => h x (List.mem_cons_of_mem c hx))]
      simp

theorem splitOnDot_joinDots :
    ∀ (parts : List (List Char)), parts ≠ [] →
      (∀ p ∈ parts, ∀ c ∈ p, c ≠ '.') →
      splitOnDot (joinDots parts) = parts
  | [], h, _ => absurd rfl h
  | [p], _, hnd => by
      unfold joinDots
      exact splitOnDot_no_dot (hnd p (List.mem_cons_self p []))
  | p :: q :: rest, _, hnd => by
      have hjoin : joinDots (p :: q :: rest) = p ++ '.' :: joinDots (q :: rest) := rfl
      unfold splitOnDot
      rw [hjoin, splitOnDotAux_append_dot [] _ (hnd p (List.mem_cons_self p _))]
      simp only [List.reverse_nil, List.nil_append]
      have ih := splitOnDot_joinDots (q :: rest) (by simp)
        (fun x hx => hnd x (List.mem_cons_of_mem p hx))
      unfold splitOnDot at ih
      rw [ih]

theorem joinDots_chars :
    ∀ (parts : List (List Char)) (c : Char), c ∈ joinDots parts →
      c = '.' ∨ ∃ p ∈ parts, c ∈ p
  | [], c => by simp [joinDots]
  | [p], c => by
      intro h
      exact Or.inr ⟨p, List.mem_cons_self p [], by simpa [joinDots] using h⟩
  | p :: q :: rest, c => by
      intro h
      have hjoin : joinDots (p :: q :: rest) = p ++ '.' :: joinDots (q :: rest) := rfl
      rw [hjoin] at h
      rcases List.mem_append.mp h with h1 | h1
      · exact Or.inr ⟨p, List.mem_cons_self p _, h1⟩
      · rcases List.mem_cons.mp h1 with rfl | h2
        · exact Or.inl rfl
        · rcases joinDots_chars (q :: rest) c h2 with h3 | ⟨x, hx, hcx⟩
          · exact Or.inl h3
          · exact Or.inr ⟨x, List.mem_cons_of_mem p hx, hcx⟩

theorem joinDots_ne_nil (p : List Char) (rest : List (List Char)) (hp : p ≠ []) :
    joinDots (p :: rest) ≠ [] := by
  cases rest with
  | nil => simpa [joinDots] using hp
  | cons q t =>
      have : joinDots (p :: q :: t) = p ++ '.' :: joinDots (q :: t) := rfl
      rw [this]
      simp

theorem parseTableHeaderGo_existing (root g : TableGroup)
    (path : List (List Char)) (hne : path ≠ [])
    (hvalid : ∀ p ∈ path, isValidKey p = true)
    (hg : getAtPath root path = some g) :
    parseTableHeaderGo root ('[' :: (joinDots path ++ [']'])) = .ok (root, path) := by
  have hnospace : ∀ c ∈ joinDots path, isSpaceGo c = false := by
    intro c hc
    rcases joinDots_chars path c hc with rfl | ⟨p, hp, hcp⟩
    · rfl
    · exact isBareKeyChar_not_space (isValidKey_chars (hvalid p hp) c hcp)
  have hnodot : ∀ p ∈ path, ∀ c ∈ p, c ≠ '.' := by
    intro p hp c hc
    exact isBareKeyChar_ne_dot (isValidKey_chars (hvalid p hp) c hc)
  have hjne : joinDots path ≠ [] := by
    cases path with
    | nil => exact absurd rfl hne
    | cons p rest =>
        refine joinDots_ne_nil p rest ?_
        intro hp0
        have := hvalid p (List.mem_cons_self p rest)
        rw [hp0] at this
        simp [isValidKey] at this
  unfold parseTableHeaderGo
  have hdrop : (('[' :: (joinDots path ++ [']'])).drop 1).dropLast = joinDots path := by
    simp
  rw [hdrop, trimSpace_id_of_no_space hnospace]
  have hjne2 : (joinDots path).isEmpty = false := by
    cases hj : joinDots path
    · exact absurd hj hjne
    · rfl
  simp only [hjne2, Bool.false_eq_true, if_false]
  unfold splitTableKey
  rw [splitOnDot_joinDots path hne hnodot]
  have hfind : path.find? (fun p => !isValidKey p) = none := by
    rw [List.find?_eq_none]
    intro p hp
    rw [hvalid p hp]
    simp
  simp only [hfind]
  rw [ensurePath_of_exists path root g hg]

theorem stripComment_append :
    ∀ (pre post : List Char), hasSpaceHash pre = false →
      stripComment (pre ++ ' ' :: '#' :: post) = pre
  | [], _, _ => rfl
  | [c], post, _ => by
      have htail : stripComment (' ' :: '#' :: post) = [] := rfl
      show stripComment (c :: ' ' :: '#' :: post) = [c]
      rw [stripComment]
      have hcond : (c = ' ' && ('#' : Char) = ' ') = false := by
        simp
      by_cases hc : c = ' '
      · subst hc
        simp [htail]
      · simp [hc, htail]
  | c1 :: c2 :: rest, post, h => by
      have hsplit : (c1 = ' ' && c2 = '#') = false ∧ hasSpaceHash (c2 :: rest) = false := by
        rw [hasSpaceHash] at h
        exact Bool.or_eq_false_iff.mp h
      show stripComment (c1 :: c2 :: (rest ++ ' ' :: '#' :: post)) = c1 :: c2 :: rest
      rw [stripComment, hsplit.1]
      simp only [Bool.false_eq_true, if_false]
      have := stripComment_append (c2 :: rest) post hsplit.2
      rw [List.cons_append] at this
      rw [this]

theorem validateBareString_iff (s : List Char) :
    (validateBareString s).isOk = true ↔ ∀ c ∈ s, isBareForbidden c = false := by
  cases h : s.any isBareForbidden with
  | true =>
      simp only [validateBareString, h, if_true, Except.isOk, Except.toBool]
      constructor
      · intro h2
        cases h2
      · intro h2
        obtain ⟨c, hc, hf⟩ := List.any_eq_true.mp h
        rw [h2 c hc] at hf
        cases hf
  | false =>
      simp only [validateBareString, h, Bool.false_eq_true, if_false, Except.isOk,
        Except.toBool]
      constructor
      · intro _ c hc
        have := List.any_eq_false.mp h c hc
        simpa using this
      · intro _
        trivial

theorem UnmarshalGo_not_ok (data : List Char) (tgt : UTarget)
    (ht : tgt ≠ .mapPtr) (r : List (List Char × Val)) :
    UnmarshalGo data tgt ≠ .ok r := by
  unfold UnmarshalGo
  cases parseDoc data with
  | error e => intro h; cases h
  | ok root =>
      cases tgt with
      | mapPtr => exact absurd rfl ht
      | structPtr => intro h; cases h
      | otherTarget => intro h; cases h

theorem UnmarshalGo_invalidTarget (data : List Char) (root : TableGroup)
    (hp : parseDoc data = .ok root) (tgt : UTarget) (ht : tgt ≠ .mapPtr) :
    UnmarshalGo data tgt = .error (errorf "Unmarshal".data (baseErr .invalidTarget)) := by
  unfold UnmarshalGo
  rw [hp]
  cases tgt with
  | mapPtr => exact absurd rfl ht
  | structPtr => rfl
  | otherTarget => rfl

theorem UnmarshalGo_mapPtr (data : List Char) (root : TableGroup)
    (hp : parseDoc data = .ok root) :
    UnmarshalGo data .mapPtr = .ok (flattenTable root) := by
  unfold UnmarshalGo
  rw [hp]

theorem sortStringsGo_perm_eq {ks1 ks2 : List (List Char)} (hp : ks1.Perm ks2) :
    sortStringsGo ks1 = sortStringsGo ks2 :=
  List.eq_of_perm_of_sorted
    ((List.perm_insertionSort goLeStr ks1).trans
      (hp.trans (List.perm_insertionSort goLeStr ks2).symm))
    (List.sorted_insertionSort goLeStr ks1)
    (List.sorted_insertionSort goLeStr ks2)

theorem marshalBasicsF_congr (e1 e2 : List (List Char × Val))
    (hlook : ∀ k, lookupA e1 k = lookupA e2 k) :
    ∀ (fuel : Nat) (ks : List (List Char)),
      marshalBasicsF fuel e1 ks = marshalBasicsF fuel e2 ks := by
  intro fuel
  induction fuel with
  | zero => intro ks; rfl
  | succ f ih =>
      intro ks
      cases ks with
      | nil => rfl
      | cons k rest =>
          show marshalBasicsF (f + 1) e1 (k :: rest) = marshalBasicsF (f + 1) e2 (k :: rest)
          rw [marshalBasicsF, marshalBasicsF, hlook k, ih rest]

theorem marshalTablesF_congr (e1 e2 : List (List Char × Val))
    (hlook : ∀ k, lookupA e1 k = lookupA e2 k) :
    ∀ (fuel : Nat) (ks : List (List Char)) (path : List (List Char)) (first : Bool),
      marshalTablesF fuel e1 ks path first = marshalTablesF fuel e2 ks path first := by
  intro fuel
  induction fuel with
  | zero => intro ks path first; rfl
  | succ f ih =>
      intro ks path first
      cases ks with
      | nil => rfl
      | cons k rest =>
          show marshalTablesF (f + 1) e1 (k :: rest) path first
              = marshalTablesF (f + 1) e2 (k :: rest) path first
          rw [marshalTablesF, marshalTablesF, hlook k]
          cases lookupA e2 k with
          | none => exact ih rest path first
          | some v =>
              cases v with
              | vTable tentries =>
                  by_cases ht : tentries.isEmpty
                  · simp only [ht, if_true]
                    exact ih rest path first
                  · simp only [ht, Bool.false_eq_true, if_false]
                    rw [ih rest path false]
              | vStr s => exact ih rest path first
              | vInt n => exact ih rest path first
              | vFloat f2 => exact ih rest path first
              | vBool b => exact ih rest path first
              | vArr es => exact ih rest path first

theorem marshalMapF_perm (e1 e2 : List (List Char × Val)) (path : List (List Char))
    (fuel : Nat) (hnd : (e1.map Prod.fst).Nodup)
    (hvalid : ∀ k ∈ e1.map Prod.fst, isValidKey k = true)
    (hp : e1.Perm e2) :
    marshalMapF fuel e1 path = marshalMapF fuel e2 path := by
  cases fuel with
  | zero => rfl
  | succ f =>
      have hlook : ∀ k, lookupA e1 k = lookupA e2 k := lookupA_perm_eq hnd hp
      have hkeysperm : (e1.map Prod.fst).Perm (e2.map Prod.fst) := hp.map Prod.fst
      have hfind1 : (e1.map Prod.fst).find? (fun k => !isValidKey k) = none := by
        rw [List.find?_eq_none]
        intro k hk
        rw [hvalid k hk]
        simp
      have hfind2 : (e2.map Prod.fst).find? (fun k => !isValidKey k) = none := by
        rw [List.find?_eq_none]
        intro k hk
        rw [hvalid k (hkeysperm.mem_iff.mpr hk)]
        simp
      have hempty : e1.isEmpty = e2.isEmpty := by
        cases e1 with
        | nil =>
            have := hp.length_eq
            cases e2 with
            | nil => rfl
            | cons x xs => simp at this
        | cons x xs =>
            have := hp.length_eq
            cases e2 with
            | nil => simp at this
            | cons y ys => rfl
      have hsort : sortStringsGo (e1.map Prod.fst) = sortStringsGo (e2.map Prod.fst) :=
        sortStringsGo_perm_eq hkeysperm
      have hbasics : lenBasics e1 = lenBasics e2 := (hp.filter _).length_eq
      have htables : lenTables e1 = lenTables e2 := (hp.filter _).length_eq
      have hnonempty : lenNonEmptyGo e1 = lenNonEmptyGo e2 := (hp.filter _).length_eq
      rw [marshalMapF, marshalMapF, hempty]
      cases he : e2.isEmpty with
      | true => rfl
      | false =>
          simp only [Bool.false_eq_true, if_false, hfind1, hfind2, hsort,
            hbasics, htables, hnonempty,
            marshalBasicsF_congr e1 e2 hlook f,
            marshalTablesF_congr e1 e2 hlook f]

/-- C1: the round-trip property fails on the code.  The tree
`{a: ["x,y"]}` is obtained by a successful parse of `a = ["x,y"]`, but
`Marshal` renders the string `x,y` bare (its quoting class does not
include the comma), so the encoded text `a = [x,y]\n` re-parses to
`{a: ["x", "y"]}`, which is not structurally equal to the original
tree. -/
theorem roundtrip_fails_on_comma_string :
    unmarshalMap "a = [\"x,y\"]" = .ok [("a".data, .vArr [.vStr "x,y".data])] ∧
    MarshalGo (.vTable [("a".data, .vArr [.vStr "x,y".data])]) = .ok "a = [x,y]\n".data ∧
    UnmarshalGo "a = [x,y]\n".data .mapPtr
      = .ok [("a".data, .vArr [.vStr "x".data, .vStr "y".data])] ∧
    Val.vArr [.vStr "x".data, .vStr "y".data] ≠ Val.vArr [.vStr "x,y".data] :=
  ⟨rfl, rfl, rfl, by decide⟩

/-- C2: the array lexer is quote-aware but not bracket-aware: it splits
`[1,2],[3,4]` on every comma outside quotes, producing the four
substrings `[1`, `2]`, `[3`, `4]` rather than the two inner arrays, and
the whole line `a = [[1,2],[3,4]]` then fails with
`errUnterminatedArray` on element 0. -/
theorem splitArrayElements_not_bracket_aware :
    splitArrayElements "[1,2],[3,4]".data
      = ["[1".data, "2]".data, "[3".data, "4]".data] ∧
    failsWith (unmarshalMap "a = [[1,2],[3,4]]") .unterminatedArray = true :=
  ⟨rfl, rfl⟩

/-- C3: an integer literal beyond the signed 64-bit range is not
rejected: `strconv.ParseInt` fails with `ErrRange`, but `parseNumber`
then falls through to `strconv.ParseFloat`, which accepts the literal,
so `n = 9223372036854775808` parses successfully to the float value
`2^63` instead of failing with an integer-overflow error. -/
theorem integer_overflow_accepted_as_float :
    parseIntGo "9223372036854775808".data = none ∧
    unmarshalMap "n = 9223372036854775808"
      = .ok [("n".data, .vFloat (.finite 9223372036854775808 0))] :=
  ⟨rfl, rfl⟩

/-- C4: within one table scope the first assignment of a key wins: if
the key is already present in the current table, `parseLine` returns
success and leaves the tree untouched, whatever the value text is; and
concretely `a = 1\na = 2` parses to `{a: 1}`. -/
theorem first_assignment_wins :
    (∀ (root g : TableGroup) (cur : List (List Char)) (k vtext : List Char),
      isValidKey k = true →
      getAtPath root cur = some g →
      containsKeyA g.values k = true →
      parseLineGo root cur (k ++ '=' :: vtext) = .ok root) ∧
    unmarshalMap "a = 1\na = 2" = .ok [("a".data, .vInt 1)] :=
  ⟨fun root g cur k vtext hk hg hv => parseLineGo_duplicate root g cur k vtext hk hg hv,
   rfl⟩

theorem first_assignment_wins_witness :
    parseLineGo ⟨[("a".data, .vInt 1)], []⟩ [] ("a".data ++ '=' :: " 2".data)
      = .ok ⟨[("a".data, .vInt 1)], []⟩ ∧
    unmarshalMap "a = 1\na = 2" = .ok [("a".data, .vInt 1)] :=
  ⟨first_assignment_wins.1 ⟨[("a".data, .vInt 1)], []⟩ ⟨[("a".data, .vInt 1)], []⟩
      [] "a".data " 2".data rfl rfl rfl,
   first_assignment_wins.2⟩

/-- C5: re-opening an existing table header repositions the current-table
cursor on the existing table and leaves the tree unchanged (merge, not
replace); concretely `[s]\nx=1\n[s]\ny=2` parses to `{s: {x:1, y:2}}`
and a key already present in the re-opened table still obeys
first-wins. -/
theorem reopened_table_merges :
    (∀ (root g : TableGroup) (path : List (List Char)),
      path ≠ [] →
      (∀ p ∈ path, isValidKey p = true) →
      getAtPath root path = some g →
      parseTableHeaderGo root ('[' :: (joinDots path ++ [']'])) = .ok (root, path)) ∧
    unmarshalMap "[s]\nx = 1\n[s]\ny = 2"
      = .ok [("s".data, .vTable [("x".data, .vInt 1), ("y".data, .vInt 2)])] ∧
    unmarshalMap "[s]\nx = 1\n[s]\nx = 2"
      = .ok [("s".data, .vTable [("x".data, .vInt 1)])] :=
  ⟨fun root g path hne hvalid hg => parseTableHeaderGo_existing root g path hne hvalid hg,
   rfl, rfl⟩

theorem reopened_table_merges_witness :
    parseTableHeaderGo ⟨[], [("s".data, emptyTG)]⟩ ('[' :: (joinDots ["s".data] ++ [']']))
      = .ok (⟨[], [("s".data, emptyTG)]⟩, ["s".data]) ∧
    unmarshalMap "[s]\nx = 1\n[s]\ny = 2"
      = .ok [("s".data, .vTable [("x".data, .vInt 1), ("y".data, .vInt 2)])] :=
  ⟨reopened_table_merges.1 ⟨[], [("s".data, emptyTG)]⟩ emptyTG ["s".data]
      (by simp) (by decide) rfl,
   reopened_table_merges.2.1⟩

/-- C6 (counterexample): the inline-comment scan is not quote-aware: on
the line `a = "x # y"` the text from the first `" #"` on is truncated
even though it lies inside a quoted string, so the line fails with
`errUnterminatedString` instead of parsing to the full string value as
the claim states. -/
theorem inline_comment_strips_inside_quotes :
    failsWith (unmarshalMap "a = \"x # y\"") .unterminatedString = true := rfl

/-- C6 (as amended): an inline ` #` truncates the rest of the line
unconditionally — the scan `strings.Index(line, " #")` does not track
quoted strings — so the prefix before the first ` #` is kept verbatim,
and a key-value line whose quoted value contains ` #` fails to parse
(here with `errUnterminatedString`). -/
theorem inline_comment_truncation_quote_unaware :
    (∀ pre post : List Char, hasSpaceHash pre = false →
      stripComment (pre ++ ' ' :: '#' :: post) = pre) ∧
    failsWith (unmarshalMap "a = \"x # y\"") .unterminatedString = true :=
  ⟨stripComment_append, rfl⟩

theorem inline_comment_truncation_witness :
    stripComment ("a = \"x".data ++ ' ' :: '#' :: " y\"".data) = "a = \"x".data ∧
    failsWith (unmarshalMap "a = \"x # y\"") .unterminatedString = true :=
  ⟨inline_comment_truncation_quote_unaware.1 "a = \"x".data " y\"".data rfl,
   inline_comment_truncation_quote_unaware.2⟩

/-- C7: encoding is deterministic and emits keys in ascending lexical
order: `marshalMap` output is invariant under permutation of the
(unordered) map entries — so two calls on the same map value produce
byte-identical bytes regardless of Go's randomised map iteration order —
the key sequence each table iterates over is sorted, and concretely
`{b: 2, a: 1}` encodes to `a = 1\nb = 2\n`. -/
theorem encoding_deterministic_sorted :
    (∀ (e1 e2 : List (List Char × Val)) (path : List (List Char)) (fuel : Nat),
      (e1.map Prod.fst).Nodup →
      (∀ k ∈ e1.map Prod.fst, isValidKey k = true) →
      e1.Perm e2 →
      marshalMapF fuel e1 path = marshalMapF fuel e2 path) ∧
    (∀ ks : List (List Char), List.Sorted goLeStr (sortStringsGo ks)) ∧
    MarshalGo (.vTable [("b".data, .vInt 2), ("a".data, .vInt 1)])
      = .ok "a = 1\nb = 2\n".data :=
  ⟨fun e1 e2 path fuel hnd hv hp => marshalMapF_perm e1 e2 path fuel hnd hv hp,
   fun ks => List.sorted_insertionSort goLeStr ks,
   rfl⟩

theorem encoding_deterministic_sorted_witness :
    marshalMapF 5 [("a".data, .vInt 1), ("b".data, .vInt 2)] []
      = marshalMapF 5 [("b".data, .vInt 2), ("a".data, .vInt 1)] [] ∧
    List.Sorted goLeStr (sortStringsGo ["b".data, "a".data]) :=
  ⟨encoding_deterministic_sorted.1 [("a".data, .vInt 1), ("b".data, .vInt 2)]
      [("b".data, .vInt 2), ("a".data, .vInt 1)] [] 5
      (by decide) (by decide) (List.Perm.swap _ _ _),
   encoding_deterministic_sorted.2.1 ["b".data, "a".data]⟩

/-- C8 (counterexample): a bare string may contain a comma: the rejected
class of `validateBareString` is `" \t\n\r\"\\#=[]"`, which does not
include `,`, so `a = x,y` parses successfully to the string `x,y`
instead of failing as the claim states. -/
theorem bare_string_comma_accepted :
    unmarshalMap "a = x,y" = .ok [("a".data, .vStr "x,y".data)] := rfl

/-- C8 (as amended): a bare string must not contain whitespace
(space/tab/newline/carriage return) or any of the characters
`"`, `\`, `#`, `=`, `[`, `]`; a comma is allowed, so `a = x,y` parses to
the string `x,y`, while a genuinely forbidden character such as `]`
fails with `errInvalidString`. -/
theorem bare_string_charset :
    (∀ s : List Char,
      (validateBareString s).isOk = true ↔ ∀ c ∈ s, isBareForbidden c = false) ∧
    isBareForbidden ',' = false ∧
    unmarshalMap "a = x,y" = .ok [("a".data, .vStr "x,y".data)] ∧
    failsWith (unmarshalMap "a = x]y") .invalidString = true :=
  ⟨validateBareString_iff, rfl, rfl, rfl⟩

theorem bare_string_charset_witness :
    (∀ c ∈ "x,y".data, isBareForbidden c = false) ∧
    unmarshalMap "a = x,y" = .ok [("a".data, .vStr "x,y".data)] :=
  ⟨(bare_string_charset.1 "x,y".data).mp rfl, bare_string_charset.2.2.1⟩

/-- C9 (counterexample): binding into a struct pointer does not succeed:
`Unmarshal` accepts only a `*map[string]any` target and returns
`errInvalidTarget` for a struct pointer. -/
theorem struct_target_rejected :
    failsWith (UnmarshalGo "a = 1".data .structPtr) .invalidTarget = true := rfl

/-- C9 (as amended): `Unmarshal` projects the parsed tree only into a
generic keyed container: with a `*map[string]any` target it succeeds and
stores the flattened tree, and with any other target — including a
struct (record) pointer — it returns `errInvalidTarget` (after
parsing). -/
theorem unmarshal_target_must_be_map :
    (∀ (data : List Char) (tgt : UTarget) (r : List (List Char × Val)),
      tgt ≠ .mapPtr → UnmarshalGo data tgt ≠ .ok r) ∧
    (∀ (data : List Char) (root : TableGroup), parseDoc data = .ok root →
      ∀ tgt : UTarget, tgt ≠ .mapPtr →
        UnmarshalGo data tgt = .error (errorf "Unmarshal".data (baseErr .invalidTarget))) ∧
    (∀ (data : List Char) (root : TableGroup), parseDoc data = .ok root →
      UnmarshalGo data .mapPtr = .ok (flattenTable root)) :=
  ⟨fun data tgt r ht => UnmarshalGo_not_ok data tgt ht r,
   fun data root hp tgt ht => UnmarshalGo_invalidTarget data root hp tgt ht,
   fun data root hp => UnmarshalGo_mapPtr data root hp⟩

theorem unmarshal_target_must_be_map_witness :
    UnmarshalGo "a = 1".data .structPtr
      = .error (errorf "Unmarshal".data (baseErr .invalidTarget)) ∧
    UnmarshalGo "a = 1".data .mapPtr = .ok (flattenTable ⟨[("a".data, .vInt 1)], []⟩) :=
  ⟨unmarshal_target_must_be_map.2.1 "a = 1".data ⟨[("a".data, .vInt 1)], []⟩ rfl
      .structPtr (by decide),
   unmarshal_target_must_be_map.2.2 "a = 1".data ⟨[("a".data, .vInt 1)], []⟩ rfl⟩

/-- C10: a duplicate-key line returns success before its value text is
lexed: `a = 1` followed by a second `a = ...` line whose value text is
malformed (an unterminated quoted string, a heterogeneous array, an
invalid escape) still parses, with the stored value unchanged, even
though each of those value texts fails the value lexer on its own. -/
theorem duplicate_key_skips_value_lexing :
    unmarshalMap "a = 1\na = \"unterminated" = .ok [("a".data, .vInt 1)] ∧
    failsWith (parseValueGo "\"unterminated".data) .unterminatedString = true ∧
    unmarshalMap "a = 1\na = [1, true]" = .ok [("a".data, .vInt 1)] ∧
    failsWith (parseValueGo "[1, true]".data) .typeMismatch = true ∧
    unmarshalMap "a = 1\na = \"bad\\q\"" = .ok [("a".data, .vInt 1)] ∧
    failsWith (parseValueGo "\"bad\\q\"".data) .invalidEscape = true :=
  ⟨rfl, rfl, rfl, rfl, rfl, rfl⟩
